import Mathlib

/-
Verification of the point-prompt refinement and metric-aggregation logic of
vista3d/scripts/validation/val_multigpu_sam2_point_iterative.py.

The Python functions are embedded as executable Lean definitions:
tensors of grid coordinates become lists of natural-number tuples,
floating-point means and squared distances become exact rationals,
NaN-able metric entries become Option values (none = NaN), and
failures (IndexError, NameError) become Option/Except error values.
-/

unseal Rat.add Rat.sub Rat.mul Rat.inv

set_option maxRecDepth 100000

/-- Voxel coordinate (row, column, slice); torch.nonzero yields these in row-major order. -/
abbrev Pt3 := ℕ × ℕ × ℕ

/-- In-plane point coordinate (as stored in the prompt list). -/
abbrev Pt2 := ℕ × ℕ

/-- A 3-D label volume indexed [row][column][slice]. -/
abbrev Vol := List (List (List ℤ))

/-- First-occurrence minimiser of f over the nonempty list x :: xs.
Models torch.sort of the distance vector followed by taking sorted index 0. -/
def argminNe {α : Type} (f : α → ℚ) (x : α) (xs : List α) : α :=
  xs.foldl (fun b a => if f a < f b then a else b) x

/-- One-step coordinate adjacency on naturals. -/
def near (a b : ℕ) : Bool := a ≤ b + 1 && b ≤ a + 1

/-- Full 26-neighbourhood adjacency of two voxels (the connectivity used by
get_largest_connected_component_mask with default connectivity on a 3-D mask). -/
def adj3 (p q : Pt3) : Bool :=
  !decide (p = q) && near p.1 q.1 && near p.2.1 q.2.1 && near p.2.2 q.2.2

/-- One expansion step of a connected region inside the foreground point list. -/
def grow (pts cur : List Pt3) : List Pt3 :=
  pts.filter (fun q => decide (q ∈ cur) || cur.any (fun c => adj3 q c))

/-- Iterated region expansion with explicit fuel. -/
def growN : ℕ → List Pt3 → List Pt3 → List Pt3
  | 0, _, cur => cur
  | n + 1, pts, cur => growN n pts (grow pts cur)

/-- The connected component of p inside the foreground point list pts. -/
def component (pts : List Pt3) (p : Pt3) : List Pt3 :=
  growN pts.length pts [p]

/-- Scan the foreground points in row-major order, emitting each new connected
component once (the labelling order of skimage measure.label). -/
def componentsGo (pts : List Pt3) : List Pt3 → List Pt3 → List (List Pt3)
  | [], _ => []
  | p :: rest, seen =>
    if p ∈ seen then componentsGo pts rest seen
    else component pts p :: componentsGo pts rest (seen ++ component pts p)

/-- All connected components of the foreground, in first-encountered order. -/
def componentList (pts : List Pt3) : List (List Pt3) :=
  componentsGo pts pts []

/-- Keep the longer component, first one winning ties
(np.argmax over np.bincount picks the smallest label among ties). -/
def pickLargest (c : List Pt3) (cs : List (List Pt3)) : List Pt3 :=
  cs.foldl (fun b a => if b.length < a.length then a else b) c

/-- The largest connected component of the foreground
(monai.transforms.utils.get_largest_connected_component_mask). -/
def largestComponent (pts : List Pt3) : List Pt3 :=
  match componentList pts with
  | [] => []
  | c :: cs => pickLargest c cs

/-- Row-major list of voxels of the binary mask labels == index
(plabels together with torch.nonzero). -/
def mask3OfLabels (labels : Vol) (index : ℤ) : List Pt3 :=
  labels.enum.flatMap (fun ip =>
    ip.2.enum.flatMap (fun jr =>
      (jr.2.enum.filter (fun kv => decide (kv.2 = index))).map
        (fun kv => (ip.1, jr.1, kv.1))))

/-- Sum of a list of rationals. -/
def sumQ (l : List ℚ) : ℚ := l.foldl (fun a b => a + b) 0

/-- Coordinate-wise mean of the component points (plabelpoints.float().mean(0)). -/
def meanPts (pts : List Pt3) : ℚ × ℚ × ℚ :=
  let n : ℚ := (pts.length : ℚ)
  (sumQ (pts.map (fun p => (p.1 : ℚ))) / n,
   sumQ (pts.map (fun p => (p.2.1 : ℚ))) / n,
   sumQ (pts.map (fun p => (p.2.2 : ℚ))) / n)

/-- Squared Euclidean distance of a voxel to the rational centroid
(((plabelpoints - pmean) ** 2).sum(-1)). -/
def sqDist3 (p : Pt3) (m : ℚ × ℚ × ℚ) : ℚ :=
  ((p.1 : ℚ) - m.1) * ((p.1 : ℚ) - m.1) +
  ((p.2.1 : ℚ) - m.2.1) * ((p.2.1 : ℚ) - m.2.1) +
  ((p.2.2 : ℚ) - m.2.2) * ((p.2.2 : ℚ) - m.2.2)

/-- get_points_from_label: largest connected component of labels == index, then
the in-component point closest to the centroid. none models the IndexError
raised by sorted_indices[0] on an empty mask. -/
def get_points_from_label (labels : Vol) (index : ℤ) : Option Pt3 :=
  match largestComponent (mask3OfLabels labels index) with
  | [] => none
  | p :: ps => some (argminNe (fun q => sqDist3 q (meanPts (p :: ps))) p ps)

/-- Iteration-0 seeding step of run: point = get_points_from_label(label);
_point = [[point[1], point[0]]]; _label = [1]; ann_frame_idx = point[-1]. -/
def seedIter0 (label : Vol) : Option (List Pt2 × List ℤ × ℕ) :=
  match get_points_from_label label 1 with
  | none => none
  | some p => some ([(p.2.1, p.1)], [1], p.2.2)

-- Basic facts about argminNe --------------------------------------------------

theorem argminNe_cons {α : Type} (f : α → ℚ) (x a : α) (t : List α) :
    argminNe f x (a :: t) = argminNe f (if f a < f x then a else x) t := rfl

theorem argminNe_mem {α : Type} (f : α → ℚ) (x : α) (xs : List α) :
    argminNe f x xs ∈ x :: xs := by
  induction xs generalizing x with
  | nil => simp [argminNe]
  | cons a t ih =>
    rw [argminNe_cons]
    by_cases hfa : f a < f x
    · rw [if_pos hfa]
      rcases List.mem_cons.mp (ih a) with h1 | h1
      · rw [h1]
        exact List.mem_cons_of_mem _ (List.mem_cons_self _ _)
      · exact List.mem_cons_of_mem _ (List.mem_cons_of_mem _ h1)
    · rw [if_neg hfa]
      rcases List.mem_cons.mp (ih x) with h1 | h1
      · rw [h1]
        exact List.mem_cons_self _ _
      · exact List.mem_cons_of_mem _ (List.mem_cons_of_mem _ h1)

theorem argminNe_le {α : Type} (f : α → ℚ) (x : α) (xs : List α) :
    ∀ y ∈ x :: xs, f (argminNe f x xs) ≤ f y := by
  induction xs generalizing x with
  | nil =>
    intro y hy
    rcases List.mem_cons.mp hy with h | h
    · rw [h]; simp [argminNe]
    · simp at h
  | cons a t ih =>
    intro y hy
    rw [argminNe_cons]
    have hle : f (if f a < f x then a else x) ≤ f x ∧
        f (if f a < f x then a else x) ≤ f a := by
      by_cases hfa : f a < f x
      · rw [if_pos hfa]; exact ⟨le_of_lt hfa, le_refl _⟩
      · rw [if_neg hfa]; exact ⟨le_refl _, le_of_not_lt hfa⟩
    have hres : f (argminNe f (if f a < f x then a else x) t) ≤
        f (if f a < f x then a else x) :=
      ih _ _ (List.mem_cons_self _ _)
    rcases List.mem_cons.mp hy with h1 | h1
    · rw [h1]; exact le_trans hres hle.1
    rcases List.mem_cons.mp h1 with h2 | h2
    · rw [h2]; exact le_trans hres hle.2
    · exact ih _ _ (List.mem_cons_of_mem _ h2)

-- Basic facts about components ------------------------------------------------

theorem mem_grow_self {p : Pt3} {pts cur : List Pt3}
    (hp : p ∈ pts) (hc : p ∈ cur) : p ∈ grow pts cur := by
  rw [grow, List.mem_filter]
  refine ⟨hp, ?_⟩
  simp [hc]

theorem mem_growN_self {p : Pt3} {pts : List Pt3} (n : ℕ) {cur : List Pt3}
    (hp : p ∈ pts) (hc : p ∈ cur) : p ∈ growN n pts cur := by
  induction n generalizing cur with
  | zero => exact hc
  | succ m ih => exact ih (mem_grow_self hp hc)

theorem mem_component_self {p : Pt3} {pts : List Pt3} (hp : p ∈ pts) :
    p ∈ component pts p :=
  mem_growN_self _ hp (List.mem_cons_self _ _)

theorem componentList_cons (p : Pt3) (rest : List Pt3) :
    componentList (p :: rest) =
      component (p :: rest) p ::
        componentsGo (p :: rest) rest (component (p :: rest) p) := by
  simp [componentList, componentsGo]

theorem pickLargest_cons (c a : List Pt3) (cs : List (List Pt3)) :
    pickLargest c (a :: cs) =
      pickLargest (if c.length < a.length then a else c) cs := rfl

theorem pickLargest_length_le (c : List Pt3) (cs : List (List Pt3)) :
    c.length ≤ (pickLargest c cs).length := by
  induction cs generalizing c with
  | nil => simp [pickLargest]
  | cons a t ih =>
    rw [pickLargest_cons]
    by_cases h : c.length < a.length
    · rw [if_pos h]
      exact le_trans (le_of_lt h) (ih a)
    · rw [if_neg h]
      exact ih c

theorem pickLargest_ge (c : List Pt3) (cs : List (List Pt3)) :
    ∀ d ∈ c :: cs, d.length ≤ (pickLargest c cs).length := by
  induction cs generalizing c with
  | nil =>
    intro d hd
    rcases List.mem_cons.mp hd with h | h
    · rw [h]; simp [pickLargest]
    · simp at h
  | cons a t ih =>
    intro d hd
    rw [pickLargest_cons]
    have hup : c.length ≤ (if c.length < a.length then a else c).length ∧
        a.length ≤ (if c.length < a.length then a else c).length := by
      by_cases h : c.length < a.length
      · rw [if_pos h]; exact ⟨le_of_lt h, le_refl _⟩
      · rw [if_neg h]; exact ⟨le_refl _, le_of_not_lt h⟩
    have hbase := pickLargest_length_le (if c.length < a.length then a else c) t
    rcases List.mem_cons.mp hd with h1 | h1
    · rw [h1]; exact le_trans hup.1 hbase
    rcases List.mem_cons.mp h1 with h2 | h2
    · rw [h2]; exact le_trans hup.2 hbase
    · exact ih _ _ (List.mem_cons_of_mem _ h2)

theorem largestComponent_nonempty {pts : List Pt3} (h : pts ≠ []) :
    largestComponent pts ≠ [] := by
  match pts, h with
  | p :: rest, _ =>
    have hmem : p ∈ component (p :: rest) p :=
      mem_component_self (List.mem_cons_self _ _)
    have hlen : 1 ≤ (component (p :: rest) p).length := by
      cases hcomp : component (p :: rest) p with
      | nil => rw [hcomp] at hmem; simp at hmem
      | cons q qs => simp
    have hge := pickLargest_length_le (component (p :: rest) p)
      (componentsGo (p :: rest) rest (component (p :: rest) p))
    simp only [largestComponent, componentList_cons]
    intro hcontra
    rw [hcontra] at hge
    simp only [List.length_nil, Nat.le_zero] at hge
    omega

theorem largestComponent_longest {pts : List Pt3} (h : pts ≠ []) :
    ∀ c ∈ componentList pts, c.length ≤ (largestComponent pts).length := by
  match pts, h with
  | p :: rest, _ =>
    intro c hc
    rw [componentList_cons] at hc
    simp only [largestComponent, componentList_cons]
    exact pickLargest_ge _ _ c hc

/-- C5: for a binary mask with at least one foreground voxel, seed selection
returns the point inside the largest connected component that is closest
(in squared, hence Euclidean, distance) to the centroid of that component,
the isolated component is at least as large as every other component, and the
slice (last) coordinate of the point becomes the annotation frame index. -/
theorem get_points_from_label_centroid_seed (labels : Vol)
    (h : mask3OfLabels labels 1 ≠ []) :
    ∃ p, get_points_from_label labels 1 = some p ∧
      p ∈ largestComponent (mask3OfLabels labels 1) ∧
      (∀ q ∈ largestComponent (mask3OfLabels labels 1),
        sqDist3 p (meanPts (largestComponent (mask3OfLabels labels 1))) ≤
          sqDist3 q (meanPts (largestComponent (mask3OfLabels labels 1)))) ∧
      (∀ c ∈ componentList (mask3OfLabels labels 1),
        c.length ≤ (largestComponent (mask3OfLabels labels 1)).length) ∧
      seedIter0 labels = some ([(p.2.1, p.1)], [1], p.2.2) := by
  have hne := largestComponent_nonempty h
  have hlong := largestComponent_longest h
  cases hL : largestComponent (mask3OfLabels labels 1) with
  | nil => exact absurd hL hne
  | cons q qs =>
    have hget : get_points_from_label labels 1 =
        some (argminNe (fun r => sqDist3 r (meanPts (q :: qs))) q qs) := by
      simp only [get_points_from_label, hL]
    refine ⟨_, hget, ?_, ?_, ?_, ?_⟩
    · exact argminNe_mem _ _ _
    · exact argminNe_le _ _ _
    · rw [hL] at hlong
      exact hlong
    · simp only [seedIter0, hget]

/-- C5 witness: a 1 x 1 x 3 volume whose three foreground voxels lie on one line;
the centroid is the middle voxel and it is selected, its slice index 1
becoming the annotation frame. -/
theorem get_points_from_label_centroid_seed_witness :
    get_points_from_label [[[1, 1, 1]]] 1 = some (0, 0, 1) ∧
    (∃ p, get_points_from_label [[[1, 1, 1]]] 1 = some p ∧
      p ∈ largestComponent (mask3OfLabels [[[1, 1, 1]]] 1) ∧
      (∀ q ∈ largestComponent (mask3OfLabels [[[1, 1, 1]]] 1),
        sqDist3 p (meanPts (largestComponent (mask3OfLabels [[[1, 1, 1]]] 1))) ≤
          sqDist3 q (meanPts (largestComponent (mask3OfLabels [[[1, 1, 1]]] 1)))) ∧
      (∀ c ∈ componentList (mask3OfLabels [[[1, 1, 1]]] 1),
        c.length ≤ (largestComponent (mask3OfLabels [[[1, 1, 1]]] 1)).length) ∧
      seedIter0 [[[1, 1, 1]]] = some ([(p.2.1, p.1)], [1], p.2.2)) :=
  ⟨by decide, get_points_from_label_centroid_seed [[[1, 1, 1]]] (by decide)⟩

/-- C10: when the evaluated label is absent (the binary mask has no foreground
voxel), get_points_from_label fails (the IndexError from sorted_indices[0] on
an empty point tensor, modelled as none) and the iteration-0 seeding step of
run propagates the failure: the object is not skipped and no point is
returned. -/
theorem seed_selection_fails_on_empty_mask (label : Vol)
    (h : mask3OfLabels label 1 = []) :
    get_points_from_label label 1 = none ∧ seedIter0 label = none := by
  have hL : largestComponent (mask3OfLabels label 1) = [] := by
    rw [h]
    rfl
  constructor
  · simp only [get_points_from_label, hL]
  · simp only [seedIter0, get_points_from_label, hL]

/-- C10 witness: a volume containing only background. -/
theorem seed_selection_fails_on_empty_mask_witness :
    get_points_from_label [[[0, 0], [0, 0]]] 1 = none ∧
    seedIter0 [[[0, 0], [0, 0]]] = none :=
  seed_selection_fails_on_empty_mask [[[0, 0], [0, 0]]] (by decide)

-- Error-driven point correction ------------------------------------------------

/-- A 2-D binary mask indexed [row][column]. -/
abbrev Grid := List (List Bool)

/-- Cell lookup with background outside the image
(border_value = 0 of scipy binary_erosion). -/
def getCell (m : Grid) (i j : ℤ) : Bool :=
  if 0 ≤ i ∧ 0 ≤ j then (m.getD i.toNat []).getD j.toNat false else false

/-- Binary erosion with the fixed 20 x 20 all-ones structuring element used by
get_points_from_false_pred; the element centre sits at offset (10, 10), so a
cell survives iff every cell at offsets -10..9 in both axes is foreground. -/
def erode20 (m : Grid) : Grid :=
  (List.range m.length).map (fun i =>
    (List.range (m.getD i []).length).map (fun j =>
      (List.range 20).all (fun di =>
        (List.range 20).all (fun dj =>
          getCell m ((i : ℤ) + (di : ℤ) - 10) ((j : ℤ) + (dj : ℤ) - 10)))))

/-- Row-major coordinates of the true cells (torch.nonzero on a 2-D mask). -/
def nonzero2 (m : Grid) : List Pt2 :=
  m.enum.flatMap (fun ir =>
    (ir.2.enum.filter (fun jv => jv.2)).map (fun jv => (ir.1, jv.1)))

/-- fp_mask = logical_and(logical_not(gt), pred): predicted but not truth. -/
def fpMask (pred gt : Grid) : Grid :=
  List.zipWith (fun pr gr => List.zipWith (fun p g => !g && p) pr gr) pred gt

/-- The false-negative mask logical_and(logical_not(pred), gt). -/
def fnMask (pred gt : Grid) : Grid :=
  List.zipWith (fun pr gr => List.zipWith (fun p g => !p && g) pr gr) pred gt

/-- Surviving points of an eroded error region
(torch.nonzero of the eroded image). -/
def erodedPoints (m : Grid) : List Pt2 := nonzero2 (erode20 m)

/-- Squared distance between a candidate (row, col) and the reference point
torch.tensor([_point[0][1], _point[0][0]]). -/
def sqDist2 (q r : Pt2) : ℚ :=
  ((q.1 : ℚ) - (r.1 : ℚ)) * ((q.1 : ℚ) - (r.1 : ℚ)) +
  ((q.2 : ℚ) - (r.2 : ℚ)) * ((q.2 : ℚ) - (r.2 : ℚ))

/-- One correction branch of get_points_from_false_pred: when the eroded error
region is nonempty, append the surviving point nearest the first prompt
(coordinates swapped back to (column, row) order) with the given label; an
empty region leaves the prompt lists unchanged. none models the IndexError
of _point[0] on an empty prompt list. -/
def correctionStep (mask : Grid) (lab : ℤ) (pts : List Pt2) (labs : List ℤ) :
    Option (List Pt2 × List ℤ) :=
  match erodedPoints mask, pts with
  | [], _ => some (pts, labs)
  | _ :: _, [] => none
  | q :: qs, p0 :: _ =>
    some (pts ++ [((argminNe (fun s => sqDist2 s (p0.2, p0.1)) q qs).2,
                   (argminNe (fun s => sqDist2 s (p0.2, p0.1)) q qs).1)],
          labs ++ [lab])

/-- get_points_from_false_pred: the false-positive correction (new label 0)
followed by the false-negative correction (new label 1), both measuring
distance to the first accumulated prompt. -/
def get_points_from_false_pred (pred gt : Grid) (pts : List Pt2) (labs : List ℤ) :
    Option (List Pt2 × List ℤ) :=
  (correctionStep (fpMask pred gt) 0 pts labs).bind
    (fun o => correctionStep (fnMask pred gt) 1 o.1 o.2)

/-- The accumulation step _point += _point_additional of the refinement loop. -/
def accumulatePrompts (pts extra : List Pt2) : List Pt2 := pts ++ extra

/-- Points appended by one correction branch, as a standalone list. -/
def appendFor (ep : List Pt2) (r : Pt2) : List Pt2 :=
  match ep with
  | [] => []
  | q :: qs => [((argminNe (fun s => sqDist2 s r) q qs).2,
                 (argminNe (fun s => sqDist2 s r) q qs).1)]

/-- Labels appended by one correction branch, as a standalone list. -/
def labsFor (ep : List Pt2) (lab : ℤ) : List ℤ :=
  match ep with
  | [] => []
  | _ :: _ => [lab]

theorem appendFor_length_eq (ep : List Pt2) (r : Pt2) (lab : ℤ) :
    (appendFor ep r).length = (labsFor ep lab).length := by
  cases ep <;> rfl

theorem correctionStep_closed (mask : Grid) (lab : ℤ) (p0 : Pt2)
    (rest : List Pt2) (labs : List ℤ) :
    correctionStep mask lab (p0 :: rest) labs =
      some ((p0 :: rest) ++ appendFor (erodedPoints mask) (p0.2, p0.1),
            labs ++ labsFor (erodedPoints mask) lab) := by
  cases h : erodedPoints mask with
  | nil => simp [correctionStep, h, appendFor, labsFor]
  | cons q qs => simp [correctionStep, h, appendFor, labsFor]

theorem gpffp_closed (pred gt : Grid) (p0 : Pt2) (rest : List Pt2)
    (labs : List ℤ) :
    get_points_from_false_pred pred gt (p0 :: rest) labs =
      some ((p0 :: rest) ++ appendFor (erodedPoints (fpMask pred gt)) (p0.2, p0.1)
              ++ appendFor (erodedPoints (fnMask pred gt)) (p0.2, p0.1),
            labs ++ labsFor (erodedPoints (fpMask pred gt)) 0
              ++ labsFor (erodedPoints (fnMask pred gt)) 1) := by
  rw [get_points_from_false_pred, correctionStep_closed]
  rw [List.cons_append]
  simp only [Option.some_bind]
  rw [correctionStep_closed]

theorem getElem_append_len {α : Type} (l t : List α) :
    (l ++ t)[l.length]? = t[0]? := by
  induction l with
  | nil => simp
  | cons a l ih => simpa using ih

/-- C6: the point-correction step never removes points: the input prompt
sequence is an unchanged initial segment of the output, the label list grows
in lockstep so equal input lengths give equal output lengths, the output is at
least as long as the input, and the accumulation step of the loop likewise
only extends the prompt list. -/
theorem correction_preserves_prompts (pred gt : Grid) (p0 : Pt2)
    (rest : List Pt2) (labs : List ℤ)
    (h : (p0 :: rest).length = labs.length) :
    ∃ ptsOut labsOut,
      get_points_from_false_pred pred gt (p0 :: rest) labs =
        some (ptsOut, labsOut) ∧
      ptsOut.take (p0 :: rest).length = p0 :: rest ∧
      labsOut.take labs.length = labs ∧
      ptsOut.length = labsOut.length ∧
      (p0 :: rest).length ≤ ptsOut.length ∧
      ∀ extra : List Pt2,
        (accumulatePrompts (p0 :: rest) extra).take (p0 :: rest).length =
          p0 :: rest := by
  refine ⟨_, _, gpffp_closed pred gt p0 rest labs, ?_, ?_, ?_, ?_, ?_⟩
  · rw [List.append_assoc]
    exact List.take_left _ _
  · rw [List.append_assoc]
    exact List.take_left _ _
  · simp only [List.length_append]
    rw [appendFor_length_eq (erodedPoints (fpMask pred gt)) (p0.2, p0.1) 0,
        appendFor_length_eq (erodedPoints (fnMask pred gt)) (p0.2, p0.1) 1, h]
  · simp only [List.length_append]
    omega
  · intro extra
    rw [accumulatePrompts]
    exact List.take_left _ _

/-- C6 witness: empty error masks leave the prompt pair ((1, 2)), (1)
unchanged, with the input preserved as the initial segment. -/
theorem correction_preserves_prompts_witness :
    (((1, 2) : Pt2) :: []).length = ([1] : List ℤ).length ∧
    (∃ ptsOut labsOut,
      get_points_from_false_pred [] [] [((1, 2) : Pt2)] [1] =
        some (ptsOut, labsOut) ∧
      ptsOut.take [((1, 2) : Pt2)].length = [((1, 2) : Pt2)] ∧
      labsOut.take ([1] : List ℤ).length = [1] ∧
      ptsOut.length = labsOut.length ∧
      [((1, 2) : Pt2)].length ≤ ptsOut.length ∧
      ∀ extra : List Pt2,
        (accumulatePrompts [((1, 2) : Pt2)] extra).take
          [((1, 2) : Pt2)].length = [((1, 2) : Pt2)]) :=
  ⟨rfl, correction_preserves_prompts [] [] (1, 2) [] [1] rfl⟩

/-- C7: with a nonempty prompt list, correction erodes the false-positive and
false-negative regions with the fixed structuring element; each branch, when
its eroded region is nonempty, appends exactly one point - one nearest to the
first prompt among the surviving points - with label 0 (background) for false
positives and label 1 (foreground) for false negatives; the branches fire
independently in one call; empty eroded regions change nothing and raise no
error. -/
theorem correction_rules (pred gt : Grid) (p0 : Pt2) (rest : List Pt2)
    (labs : List ℤ) :
    ∃ out, get_points_from_false_pred pred gt (p0 :: rest) labs = some out ∧
      out.2 = labs ++
        (if (erodedPoints (fpMask pred gt)).isEmpty then [] else [(0 : ℤ)]) ++
        (if (erodedPoints (fnMask pred gt)).isEmpty then [] else [(1 : ℤ)]) ∧
      out.1.length = (p0 :: rest).length +
        (if (erodedPoints (fpMask pred gt)).isEmpty then 0 else 1) +
        (if (erodedPoints (fnMask pred gt)).isEmpty then 0 else 1) ∧
      (erodedPoints (fpMask pred gt) = [] → erodedPoints (fnMask pred gt) = [] →
        out = (p0 :: rest, labs)) ∧
      (erodedPoints (fpMask pred gt) ≠ [] →
        ∃ n, n ∈ erodedPoints (fpMask pred gt) ∧
          (∀ q ∈ erodedPoints (fpMask pred gt),
            sqDist2 n (p0.2, p0.1) ≤ sqDist2 q (p0.2, p0.1)) ∧
          out.1[(p0 :: rest).length]? = some (n.2, n.1)) ∧
      (erodedPoints (fnMask pred gt) ≠ [] →
        ∃ m, m ∈ erodedPoints (fnMask pred gt) ∧
          (∀ q ∈ erodedPoints (fnMask pred gt),
            sqDist2 m (p0.2, p0.1) ≤ sqDist2 q (p0.2, p0.1)) ∧
          out.1.getLast? = some (m.2, m.1)) := by
  refine ⟨_, gpffp_closed pred gt p0 rest labs, ?_, ?_, ?_, ?_, ?_⟩
  · cases hF : erodedPoints (fpMask pred gt) <;>
      cases hN : erodedPoints (fnMask pred gt) <;>
        simp [labsFor]
  · cases hF : erodedPoints (fpMask pred gt) <;>
      cases hN : erodedPoints (fnMask pred gt) <;>
        simp [appendFor, List.length_append]
  · intro hF hN
    rw [hF, hN]
    simp [appendFor, labsFor]
  · intro hF
    cases hFc : erodedPoints (fpMask pred gt) with
    | nil => exact absurd hFc hF
    | cons q qs =>
      refine ⟨argminNe (fun s => sqDist2 s (p0.2, p0.1)) q qs, ?_, ?_, ?_⟩
      · exact argminNe_mem _ _ _
      · exact argminNe_le _ _ _
      · simp only [appendFor]
        rw [List.append_assoc]
        rw [getElem_append_len]
        simp
  · intro hN
    cases hNc : erodedPoints (fnMask pred gt) with
    | nil => exact absurd hNc hN
    | cons q qs =>
      refine ⟨argminNe (fun s => sqDist2 s (p0.2, p0.1)) q qs, ?_, ?_, ?_⟩
      · exact argminNe_mem _ _ _
      · exact argminNe_le _ _ _
      · simp only [appendFor]
        exact List.getLast?_concat _

/-- All-foreground 20 x 20 prediction grid. -/
def pred20 : Grid := List.replicate 20 (List.replicate 20 true)

/-- All-background 20 x 20 ground-truth grid. -/
def gt20 : Grid := List.replicate 20 (List.replicate 20 false)

/-- C7 witness: with an all-true prediction over all-false truth, the eroded
false-positive region is the single cell (10, 10), which is appended with
label 0; the false-negative region is empty. -/
theorem correction_rules_witness :
    get_points_from_false_pred pred20 gt20 [((0, 0) : Pt2)] [1] =
      some ([(0, 0), (10, 10)], [1, 0]) ∧
    (∃ out, get_points_from_false_pred pred20 gt20 [((0, 0) : Pt2)] [1] =
        some out ∧
      out.2 = [1] ++
        (if (erodedPoints (fpMask pred20 gt20)).isEmpty then [] else [(0 : ℤ)]) ++
        (if (erodedPoints (fnMask pred20 gt20)).isEmpty then [] else [(1 : ℤ)]) ∧
      out.1.length = [((0, 0) : Pt2)].length +
        (if (erodedPoints (fpMask pred20 gt20)).isEmpty then 0 else 1) +
        (if (erodedPoints (fnMask pred20 gt20)).isEmpty then 0 else 1) ∧
      (erodedPoints (fpMask pred20 gt20) = [] →
        erodedPoints (fnMask pred20 gt20) = [] →
        out = ([((0, 0) : Pt2)], [1])) ∧
      (erodedPoints (fpMask pred20 gt20) ≠ [] →
        ∃ n, n ∈ erodedPoints (fpMask pred20 gt20) ∧
          (∀ q ∈ erodedPoints (fpMask pred20 gt20),
            sqDist2 n (0, 0) ≤ sqDist2 q (0, 0)) ∧
          out.1[[((0, 0) : Pt2)].length]? = some (n.2, n.1)) ∧
      (erodedPoints (fnMask pred20 gt20) ≠ [] →
        ∃ m, m ∈ erodedPoints (fnMask pred20 gt20) ∧
          (∀ q ∈ erodedPoints (fnMask pred20 gt20),
            sqDist2 m (0, 0) ≤ sqDist2 q (0, 0)) ∧
          out.1.getLast? = some (m.2, m.1))) :=
  ⟨by decide, correction_rules pred20 gt20 (0, 0) [] [1]⟩

-- Iteration >= 1 seeding ---------------------------------------------------------

/-- label[..., k]: the 2-D slice of the label volume at slice index k. -/
def sliceAt (label : Vol) (k : ℕ) : List (List ℤ) :=
  label.map (fun plane => plane.map (fun row => row.getD k 0))

/-- Embed a 2-D mask as a depth-1 volume; on a single slice the full 3-D
connectivity coincides with full 2-D (8-neighbourhood) connectivity. -/
def volOfSlice (s : List (List ℤ)) : Vol :=
  s.map (fun row => row.map (fun v => [v]))

/-- The iteration >= 1 seeding step of run: the point from the slice with the
lowest previous per-frame Dice is computed first but the next statement
rebinds point to the whole-volume centroid point, so the extra positive
prompt appended to the accumulated set (and the annotation frame) come from
the centre of the whole ROI and the worst-frame point is discarded. -/
def seedIterLater (label : Vol) (lowIdx : ℕ) (pts : List Pt2) (labs : List ℤ) :
    Option (List Pt2 × List ℤ × ℕ) :=
  let _worstFramePoint := get_points_from_label (volOfSlice (sliceAt label lowIdx)) 1
  match get_points_from_label label 1 with
  | none => none
  | some p => some (pts ++ [(p.2.1, p.1)], labs ++ [1], p.2.2)

/-- A 5 x 5 x 2 label volume: a 3 x 3 foreground block in frame 0 and a lone
foreground voxel at (4, 4) in frame 1. -/
def exLabel : Vol :=
  [[[1, 0], [1, 0], [1, 0], [0, 0], [0, 0]],
   [[1, 0], [1, 0], [1, 0], [0, 0], [0, 0]],
   [[1, 0], [1, 0], [1, 0], [0, 0], [0, 0]],
   [[0, 0], [0, 0], [0, 0], [0, 0], [0, 0]],
   [[0, 0], [0, 0], [0, 0], [0, 0], [0, 1]]]

/-- C1: evaluation at a failing input. With the worst-performing frame being
frame 1, the worst-frame seed (4, 4) of frame 1 is computed and then thrown
away: the extra appended prompt is the whole-volume centroid point (1, 1)
with annotation frame 0 - exactly the iteration-0 seed - and not a point of
frame 1, contradicting the claim that the extra point comes from the
globally worst-performing frame. -/
theorem seedIterLater_ignores_worst_frame :
    seedIterLater exLabel 1 [] [] = some ([(1, 1)], [1], 0) ∧
    get_points_from_label (volOfSlice (sliceAt exLabel 1)) 1 = some (4, 4, 0) ∧
    seedIter0 exLabel = some ([(1, 1)], [1], 0) ∧
    (0 : ℕ) ≠ 1 :=
  ⟨by decide, by decide, by decide, by decide⟩

-- Forward / reverse propagation merge -------------------------------------------

/-- Python dict assignment d[k] = v: replace in place when the key exists,
append at the end otherwise. -/
def dictSet {α : Type} : List (ℕ × α) → ℕ → α → List (ℕ × α)
  | [], k, v => [(k, v)]
  | (k', v') :: t, k, v =>
    if k = k' then (k', v) :: t else (k', v') :: dictSet t k v

/-- Python dict lookup d[k]. -/
def dictLookup {α : Type} : List (ℕ × α) → ℕ → Option α
  | [], _ => none
  | (k', v) :: t, k => if k = k' then some v else dictLookup t k

/-- video_segments after both propagation loops: every (frame, mask) pair of
the forward pass, then every pair of the reverse pass, written with dict
assignment into the initially empty dict. -/
def mergeSegments {α : Type} (fwd rev : List (ℕ × α)) : List (ℕ × α) :=
  (fwd ++ rev).foldl (fun m kv => dictSet m kv.1 kv.2) []

/-- The first defined of two optional values. -/
def firstSome {α : Type} (a b : Option α) : Option α :=
  match a with
  | some v => some v
  | none => b

theorem dictLookup_dictSet {α : Type} (m : List (ℕ × α)) (k k' : ℕ) (v : α) :
    dictLookup (dictSet m k' v) k =
      if k = k' then some v else dictLookup m k := by
  induction m with
  | nil =>
    by_cases h : k = k' <;> simp [dictSet, dictLookup, h]
  | cons a t ih =>
    obtain ⟨ka, va⟩ := a
    by_cases h1 : k' = ka
    · subst h1
      by_cases h2 : k = k' <;> simp [dictSet, dictLookup, h2]
    · simp only [dictSet, if_neg h1]
      by_cases h2 : k = ka
      · subst h2
        have hkk : ¬k = k' := fun hc => h1 hc.symm
        simp [dictLookup, hkk]
      · simp [dictLookup, h2, ih]

theorem dictLookup_append {α : Type} (x y : List (ℕ × α)) (k : ℕ) :
    dictLookup (x ++ y) k = firstSome (dictLookup x k) (dictLookup y k) := by
  induction x with
  | nil => simp [dictLookup, firstSome]
  | cons a t ih =>
    obtain ⟨ka, va⟩ := a
    by_cases h : k = ka <;> simp [dictLookup, h, ih, firstSome]

theorem dictLookup_foldSet {α : Type} (l m : List (ℕ × α)) (k : ℕ) :
    dictLookup (l.foldl (fun d kv => dictSet d kv.1 kv.2) m) k =
      firstSome (dictLookup l.reverse k) (dictLookup m k) := by
  induction l generalizing m with
  | nil => simp [firstSome, dictLookup]
  | cons a t ih =>
    simp only [List.foldl_cons, List.reverse_cons]
    rw [ih, dictLookup_append, dictLookup_dictSet]
    cases hres : dictLookup t.reverse k <;>
      by_cases h : k = a.1 <;>
        simp [firstSome, dictLookup, h]

theorem dictLookup_of_mem_nodup {α : Type} {l : List (ℕ × α)} {k : ℕ} {v : α}
    (hnd : (l.map Prod.fst).Nodup) (hm : (k, v) ∈ l) :
    dictLookup l k = some v := by
  induction l with
  | nil => simp at hm
  | cons a t ih =>
    obtain ⟨ka, va⟩ := a
    rw [List.map_cons, List.nodup_cons] at hnd
    rcases List.mem_cons.mp hm with h | h
    · have hk : k = ka := congrArg Prod.fst h
      have hv : v = va := congrArg Prod.snd h
      subst hk
      subst hv
      simp [dictLookup]
    · have hk : ¬k = ka := by
        intro hkk
        subst hkk
        exact hnd.1 (List.mem_map.mpr ⟨(k, v), h, rfl⟩)
      simp [dictLookup, hk]
      exact ih hnd.2 h

/-- C3 counterexample: frame 0 is produced by both passes with different
masks; the merged dict holds the reverse-pass mask, not the forward one, so
a frame already set by the forward pass IS overwritten by the reverse pass. -/
theorem mergeSegments_forward_precedence_refuted :
    dictLookup (mergeSegments [(0, ([[true]] : Grid))] [(0, [[false]])]) 0 =
      some [[false]] ∧
    ([[false]] : Grid) ≠ [[true]] :=
  ⟨by decide, by decide⟩

/-- C3 amended: for every frame index produced by both passes, the merged
per-frame segmentation equals the REVERSE pass's mask for that frame: the
reverse loop's dict assignments overwrite the forward ones. -/
theorem mergeSegments_reverse_precedence {α : Type} (fwd rev : List (ℕ × α))
    (k : ℕ) (v : α) (hnd : (rev.map Prod.fst).Nodup) (hm : (k, v) ∈ rev) :
    dictLookup (mergeSegments fwd rev) k = some v := by
  rw [mergeSegments, dictLookup_foldSet, List.reverse_append, dictLookup_append]
  have hrev : dictLookup rev.reverse k = some v := by
    refine dictLookup_of_mem_nodup ?_ (List.mem_reverse.mpr hm)
    rw [List.map_reverse]
    exact List.nodup_reverse.mpr hnd
  rw [hrev]
  simp [firstSome]

/-- C3 witness: the reverse pass produced frames 0 and 1; its frame-1 mask is
what the merged dict returns. -/
theorem mergeSegments_reverse_precedence_witness :
    ((([(0, ([[false]] : Grid)), (1, [[true]])]).map Prod.fst).Nodup ∧
      ((1 : ℕ), ([[true]] : Grid)) ∈ [(0, ([[false]] : Grid)), (1, [[true]])]) ∧
    dictLookup
      (mergeSegments [(0, ([[true]] : Grid))] [(0, [[false]]), (1, [[true]])]) 1 =
        some [[true]] :=
  ⟨⟨by decide, by decide⟩,
    mergeSegments_reverse_precedence [(0, [[true]])] [(0, [[false]]), (1, [[true]])]
      1 [[true]] (by decide) (by decide)⟩

-- Metric tensor and NaN handling --------------------------------------------------

/-- torch.nan_to_num(x, 0) on one entry: NaN becomes 0. -/
def nanToNum0 (x : Option ℚ) : ℚ := x.getD 0

/-- Fold maximum over the nonempty list x :: xs (torch max over a dim). -/
def maxQ (x : ℚ) (xs : List ℚ) : ℚ := xs.foldl max x

/-- Best-over-iterations entry of one (volume, object) pair for max_iters > 1:
torch.nan_to_num(metric, 0).max(2)[0]. -/
def metric_best_entry (its : List (Option ℚ)) : Option ℚ :=
  match its.map nanToNum0 with
  | [] => none
  | x :: xs => some (maxQ x xs)

/-- Best entry when max_iters = 1: metric[:, :, 0], the lone iteration value. -/
def metricBestSingle (its : List (Option ℚ)) : Option ℚ :=
  match its with
  | [] => none
  | x :: _ => x

/-- Following the spec wording, for comparison with metric_best_entry: the
NaN-safe maximum in which NaN entries are excluded and never contribute, NaN
(none) when no finite entry exists. -/
def nanSafeMax (its : List (Option ℚ)) : Option ℚ :=
  match its.filterMap id with
  | [] => none
  | x :: xs => some (maxQ x xs)

/-- NaN-propagating addition of float scalars. -/
def nanAdd (a b : Option ℚ) : Option ℚ :=
  match a, b with
  | some x, some y => some (x + y)
  | _, _ => none

/-- One entry of torch.zeros(...) + torch.nan: 0 + NaN = NaN. -/
def initMetricEntry : Option ℚ := nanAdd (some 0) none

/-- The freshly allocated metric tensor, as an entry function over
(volume, object, iteration) indices. -/
def initMetric : ℕ → ℕ → ℕ → Option ℚ := fun _ _ _ => initMetricEntry

/-- One assignment metric[v, o, t] = x. -/
def setEntry (m : ℕ → ℕ → ℕ → Option ℚ) (u : ℕ × ℕ × ℕ × ℚ) :
    ℕ → ℕ → ℕ → Option ℚ :=
  fun v o t =>
    if v = u.1 ∧ o = u.2.1 ∧ t = u.2.2.1 then some u.2.2.2 else m v o t

/-- A sequence of assignments metric[v, o, t] = x applied in program order. -/
def applyUpdates (m : ℕ → ℕ → ℕ → Option ℚ) :
    List (ℕ × ℕ × ℕ × ℚ) → (ℕ → ℕ → ℕ → Option ℚ)
  | [] => m
  | u :: us => applyUpdates (setEntry m u) us

theorem maxQ_cons (x a : ℚ) (t : List ℚ) :
    maxQ x (a :: t) = maxQ (max x a) t := rfl

theorem maxQ_mem (x : ℚ) (xs : List ℚ) : maxQ x xs ∈ x :: xs := by
  induction xs generalizing x with
  | nil => simp [maxQ]
  | cons a t ih =>
    rw [maxQ_cons]
    rcases max_choice x a with h | h
    · rcases List.mem_cons.mp (ih (max x a)) with h1 | h1
      · rw [h1, h]
        exact List.mem_cons_self _ _
      · exact List.mem_cons_of_mem _ (List.mem_cons_of_mem _ h1)
    · rcases List.mem_cons.mp (ih (max x a)) with h1 | h1
      · rw [h1, h]
        exact List.mem_cons_of_mem _ (List.mem_cons_self _ _)
      · exact List.mem_cons_of_mem _ (List.mem_cons_of_mem _ h1)

theorem le_maxQ (x : ℚ) (xs : List ℚ) : ∀ y ∈ x :: xs, y ≤ maxQ x xs := by
  induction xs generalizing x with
  | nil =>
    intro y hy
    rcases List.mem_cons.mp hy with h | h
    · rw [h]; exact le_refl x
    · simp at h
  | cons a t ih =>
    intro y hy
    rw [maxQ_cons]
    have hbase : max x a ≤ maxQ (max x a) t :=
      ih (max x a) _ (List.mem_cons_self _ _)
    rcases List.mem_cons.mp hy with h1 | h1
    · rw [h1]; exact le_trans (le_max_left x a) hbase
    rcases List.mem_cons.mp h1 with h2 | h2
    · rw [h2]; exact le_trans (le_max_right x a) hbase
    · exact ih (max x a) _ (List.mem_cons_of_mem _ h2)

theorem applyUpdates_untouched (us : List (ℕ × ℕ × ℕ × ℚ))
    (m : ℕ → ℕ → ℕ → Option ℚ) (v o t : ℕ)
    (h : ∀ u ∈ us, ¬(v = u.1 ∧ o = u.2.1 ∧ t = u.2.2.1)) :
    applyUpdates m us v o t = m v o t := by
  induction us generalizing m with
  | nil => rfl
  | cons u us ih =>
    rw [applyUpdates]
    rw [ih _ (fun w hw => h w (List.mem_cons_of_mem _ hw))]
    rw [setEntry, if_neg (h u (List.mem_cons_self _ _))]

theorem metric_best_eq_nanSafeMax (its : List (Option ℚ))
    (hpos : ∀ q : ℚ, some q ∈ its → 0 ≤ q)
    (hex : ∃ x ∈ its, x ≠ none) :
    metric_best_entry its = nanSafeMax its := by
  obtain ⟨x0, hx0m, hx0⟩ := hex
  obtain ⟨q0, rfl⟩ : ∃ q, x0 = some q := Option.ne_none_iff_exists'.mp hx0
  have hq0f : q0 ∈ its.filterMap id := List.mem_filterMap.mpr ⟨some q0, hx0m, rfl⟩
  cases hits : its with
  | nil =>
    rw [hits] at hx0m
    simp at hx0m
  | cons i0 irest =>
    subst hits
    cases hfm : (i0 :: irest).filterMap id with
    | nil =>
      rw [hfm] at hq0f
      simp at hq0f
    | cons f0 frest =>
      have hL : metric_best_entry (i0 :: irest) =
          some (maxQ (nanToNum0 i0) (irest.map nanToNum0)) := rfl
      have hR : nanSafeMax (i0 :: irest) = some (maxQ f0 frest) := by
        rw [nanSafeMax, hfm]
      rw [hL, hR]
      have hmapsh : nanToNum0 i0 :: irest.map nanToNum0 =
          (i0 :: irest).map nanToNum0 := rfl
      have hBle := le_maxQ f0 frest
      have hAle := le_maxQ (nanToNum0 i0) (irest.map nanToNum0)
      have hAB : maxQ (nanToNum0 i0) (irest.map nanToNum0) ≤ maxQ f0 frest := by
        have hAmem := maxQ_mem (nanToNum0 i0) (irest.map nanToNum0)
        rw [hmapsh] at hAmem
        obtain ⟨xa, hxa, hval⟩ := List.mem_map.mp hAmem
        cases xa with
        | some qa =>
          have hqa : qa ∈ (i0 :: irest).filterMap id :=
            List.mem_filterMap.mpr ⟨some qa, hxa, rfl⟩
          rw [hfm] at hqa
          have := hBle qa hqa
          rw [← hval]
          simpa [nanToNum0] using this
        | none =>
          have hq0le : q0 ≤ maxQ f0 frest := hBle q0 (hfm ▸ hq0f)
          have h0 : (0 : ℚ) ≤ q0 := hpos q0 hx0m
          rw [← hval]
          simp only [nanToNum0, Option.getD_none]
          exact le_trans h0 hq0le
      have hBA : maxQ f0 frest ≤ maxQ (nanToNum0 i0) (irest.map nanToNum0) := by
        have hBmem : maxQ f0 frest ∈ (i0 :: irest).filterMap id := by
          rw [hfm]
          exact maxQ_mem f0 frest
        obtain ⟨xb, hxb, hxbeq⟩ := List.mem_filterMap.mp hBmem
        have hxb' : xb = some (maxQ f0 frest) := hxbeq
        rw [hxb'] at hxb
        have hmm : nanToNum0 (some (maxQ f0 frest)) ∈
            (i0 :: irest).map nanToNum0 :=
          List.mem_map.mpr ⟨some (maxQ f0 frest), hxb, rfl⟩
        rw [← hmapsh] at hmm
        have := hAle _ hmm
        simpa [nanToNum0] using this
      exact congrArg some (le_antisymm hAB hBA)

/-- C4 counterexample: a (volume, object) pair whose iteration entries are all
NaN: nan_to_num(..., 0).max yields 0 even though no non-NaN entry exists, so
NaN entries do contribute to the best, while the NaN-excluding maximum of the
claim is undefined (NaN) there. -/
theorem metric_best_allnan_contributes :
    metric_best_entry [none, none] = some 0 ∧
    nanSafeMax [none, none] = none ∧
    metric_best_entry [none, none] ≠ nanSafeMax [none, none] :=
  ⟨by decide, by decide, by decide⟩

/-- C4 corrected: entries of the freshly allocated metric tensor are all NaN
(0 + NaN = NaN); entries never assigned stay NaN; for max_iters = 1 the best
is the lone entry with NaN preserved, equal to the NaN-excluding maximum; and
for max_iters > 1 the nan_to_num-based best equals the NaN-excluding maximum
whenever at least one iteration entry is non-NaN (Dice values being
nonnegative) - but an all-NaN pair yields 0 instead of NaN. -/
theorem metric_nan_handling :
    (∀ v o t, initMetric v o t = none) ∧
    (∀ us : List (ℕ × ℕ × ℕ × ℚ), ∀ v o t,
      (∀ u ∈ us, ¬(v = u.1 ∧ o = u.2.1 ∧ t = u.2.2.1)) →
      applyUpdates initMetric us v o t = none) ∧
    (∀ x : Option ℚ, metricBestSingle [x] = nanSafeMax [x]) ∧
    (∀ its : List (Option ℚ), (∀ q : ℚ, some q ∈ its → 0 ≤ q) →
      (∃ x ∈ its, x ≠ none) → metric_best_entry its = nanSafeMax its) := by
  refine ⟨fun v o t => rfl, ?_, ?_, metric_best_eq_nanSafeMax⟩
  · intro us v o t h
    rw [applyUpdates_untouched us initMetric v o t h]
    rfl
  · intro x
    cases x <;> rfl

/-- C4 witness: on the entries (NaN, 1) the hypotheses of the corrected claim
hold and the code best agrees with the NaN-excluding maximum. -/
theorem metric_nan_handling_witness :
    ((∀ q : ℚ, some q ∈ [none, some (1 : ℚ)] → 0 ≤ q) ∧
      (∃ x ∈ [none, some (1 : ℚ)], x ≠ none)) ∧
    metric_best_entry [none, some (1 : ℚ)] = nanSafeMax [none, some (1 : ℚ)] := by
  have hpos : ∀ q : ℚ, some q ∈ [none, some (1 : ℚ)] → 0 ≤ q := by
    intro q hq
    simp only [List.mem_cons, List.not_mem_nil, or_false] at hq
    rcases hq with h | h
    · exact absurd h (by simp)
    · rw [Option.some.inj h]
      decide
  have hex : ∃ x ∈ [none, some (1 : ℚ)], x ≠ none := ⟨some 1, by simp, by simp⟩
  exact ⟨⟨hpos, hex⟩, metric_nan_handling.2.2.2 [none, some 1] hpos hex⟩

-- Row filtering and cross-worker aggregation -------------------------------------

/-- keep_index predicate: every entry of the volume row is NaN across objects
and iterations (torch.isnan(metric).all(1).all(1)). -/
def allNaNRow (row : List (List (Option ℚ))) : Bool :=
  row.all (fun obj => obj.all (fun x => x.isNone))

/-- metric[keep_index]: drop every all-NaN volume row, keeping the others in
order. -/
def dropAllNaN (m : List (List (List (Option ℚ)))) :
    List (List (List (Option ℚ))) :=
  m.filter (fun r => !allNaNRow r)

/-- C8: the row filter keeps exactly the volume rows holding at least one
non-NaN entry, preserving their order, and drops every all-NaN row. -/
theorem dropAllNaN_keeps_rows_with_value (m : List (List (List (Option ℚ)))) :
    (∀ r, r ∈ dropAllNaN m ↔
      r ∈ m ∧ ∃ obj ∈ r, ∃ x ∈ obj, x.isSome = true) ∧
    List.Sublist (dropAllNaN m) m := by
  constructor
  · intro r
    rw [dropAllNaN, List.mem_filter]
    have hiff : (!allNaNRow r) = true ↔
        ∃ obj ∈ r, ∃ x ∈ obj, x.isSome = true := by
      rw [Bool.not_eq_true', allNaNRow, List.all_eq_false]
      constructor
      · rintro ⟨obj, hobj, hne⟩
        rw [Bool.not_eq_true, List.all_eq_false] at hne
        obtain ⟨x, hx, hxf⟩ := hne
        refine ⟨obj, hobj, x, hx, ?_⟩
        cases x with
        | none => simp at hxf
        | some q => rfl
      · rintro ⟨obj, hobj, x, hx, hxs⟩
        refine ⟨obj, hobj, ?_⟩
        rw [Bool.not_eq_true, List.all_eq_false]
        refine ⟨x, hx, ?_⟩
        cases x with
        | none => simp at hxs
        | some q => simp
    rw [hiff]
  · exact List.filter_sublist m

-- Distributed sizing and vstack ----------------------------------------------------

/-- obj_num = max(output_tensor): python max over the all-gathered per-worker
volume counts (every count is a natural number). -/
def gatherMax (counts : List ℕ) : ℕ := counts.foldl max 0

/-- The fully-computed row of volume v: every object and iteration holds a
Dice value. -/
def diceRow (dim iters : ℕ) (f : ℕ → ℕ → ℕ → ℚ) (v : ℕ) :
    List (List (Option ℚ)) :=
  (List.range dim).map (fun o => (List.range iters).map (fun t => some (f v o t)))

/-- An untouched all-NaN row of the allocated metric tensor. -/
def nanRow (dim iters : ℕ) : List (List (Option ℚ)) :=
  (List.range dim).map (fun _ => (List.range iters).map
    (fun _ => (none : Option ℚ)))

/-- One worker's metric tensor after its evaluation loop: allocated with
obj_num rows, the first count rows fully computed, the padding rows left at
their initial NaN. -/
def workerMetric (objNum count dim iters : ℕ) (f : ℕ → ℕ → ℕ → ℚ) :
    List (List (List (Option ℚ))) :=
  (List.range objNum).map
    (fun v => if v < count then diceRow dim iters f v else nanRow dim iters)

/-- torch.vstack over the all-gathered per-worker metric tensors. -/
def vstackAll (ms : List (List (List (List (Option ℚ))))) :
    List (List (List (Option ℚ))) :=
  ms.flatten

theorem le_foldl_max (l : List ℕ) (a : ℕ) : a ≤ l.foldl max a := by
  induction l generalizing a with
  | nil => exact le_refl a
  | cons b t ih => exact le_trans (le_max_left a b) (ih (max a b))

theorem mem_le_foldl_max (l : List ℕ) (a : ℕ) : ∀ c ∈ l, c ≤ l.foldl max a := by
  induction l generalizing a with
  | nil =>
    intro c hc
    simp at hc
  | cons b t ih =>
    intro c hc
    rcases List.mem_cons.mp hc with h | h
    · rw [h]
      exact le_trans (le_max_right a b) (le_foldl_max t (max a b))
    · exact ih (max a b) c h

theorem filter_map_comm {α β : Type} (g : α → β) (p : β → Bool) (l : List α) :
    (l.map g).filter p = (l.filter (fun a => p (g a))).map g := by
  induction l with
  | nil => rfl
  | cons a t ih =>
    by_cases h : p (g a) = true
    · simp [List.filter_cons, h, ih]
    · rw [Bool.not_eq_true] at h
      simp [List.filter_cons, h, ih]

theorem range_filter_lt (c M : ℕ) (h : c ≤ M) :
    (List.range M).filter (fun v => decide (v < c)) = List.range c := by
  induction M with
  | zero =>
    have hc : c = 0 := Nat.le_zero.mp h
    rw [hc]
    rfl
  | succ M ih =>
    rw [List.range_succ, List.filter_append]
    rcases Nat.lt_or_ge M c with hlt | hge
    · have hc : c = M + 1 := by omega
      subst hc
      rw [List.filter_eq_self.mpr (fun a ha =>
        decide_eq_true (Nat.lt_succ_of_lt (List.mem_range.mp ha)))]
      have hM : (List.filter (fun v => decide (v < M + 1)) [M]) = [M] := by
        simp
      rw [hM, ← List.range_succ]
    · rw [ih hge]
      have hM : (List.filter (fun v => decide (v < c)) [M]) = [] := by
        simp
        omega
      rw [hM, List.append_nil]

theorem allNaNRow_nanRow (dim iters : ℕ) : allNaNRow (nanRow dim iters) = true := by
  simp [allNaNRow, nanRow, List.all_eq_true]

theorem allNaNRow_diceRow (dim iters : ℕ) (f : ℕ → ℕ → ℕ → ℚ) (v : ℕ)
    (hd : 0 < dim) (hi : 0 < iters) :
    allNaNRow (diceRow dim iters f v) = false := by
  have h0d : 0 ∈ List.range dim := List.mem_range.mpr hd
  have h0i : 0 ∈ List.range iters := List.mem_range.mpr hi
  rw [Bool.eq_false_iff]
  intro hall
  rw [allNaNRow, List.all_eq_true] at hall
  have h1 := hall _ (List.mem_map.mpr ⟨0, h0d, rfl⟩)
  rw [List.all_eq_true] at h1
  have h2 := h1 _ (List.mem_map.mpr ⟨0, h0i, rfl⟩)
  simp at h2

theorem dropAllNaN_workerMetric (M c dim iters : ℕ) (f : ℕ → ℕ → ℕ → ℚ)
    (hc : c ≤ M) (hd : 0 < dim) (hi : 0 < iters) :
    dropAllNaN (workerMetric M c dim iters f) = workerMetric c c dim iters f := by
  rw [dropAllNaN, workerMetric, filter_map_comm]
  rw [List.filter_congr (fun v hv => show
      (!allNaNRow (if v < c then diceRow dim iters f v else nanRow dim iters)) =
        decide (v < c) by
    by_cases h : v < c
    · simp [h, allNaNRow_diceRow dim iters f v hd hi]
    · simp [h, allNaNRow_nanRow])]
  rw [range_filter_lt c M hc]
  rfl

theorem dropAllNaN_flatten (ms : List (List (List (List (Option ℚ))))) :
    dropAllNaN ms.flatten = (ms.map dropAllNaN).flatten := by
  induction ms with
  | nil => rfl
  | cons a t ih =>
    simp only [List.flatten_cons, List.map_cons, dropAllNaN, List.filter_append]
    simp only [dropAllNaN] at ih
    rw [ih]

theorem length_vstackAll (ms : List (List (List (List (Option ℚ))))) (n : ℕ)
    (h : ∀ x ∈ ms, x.length = n) : (vstackAll ms).length = ms.length * n := by
  induction ms with
  | nil => simp [vstackAll]
  | cons a t ih =>
    rw [vstackAll, List.flatten_cons, List.length_append]
    rw [h a (List.mem_cons_self _ _)]
    rw [show t.flatten = vstackAll t from rfl]
    rw [ih (fun x hx => h x (List.mem_cons_of_mem _ hx))]
    rw [List.length_cons]
    ring

/-- C9: sizing the volume axis to the gathered maximum shard size gives every
worker a metric tensor with the same number of volume rows, makes the
all-gather vstack well formed with world_size * max rows, and the padding
rows of every worker stay all-NaN and are exactly what the subsequent
all-NaN row drop removes: the surviving rows are each worker's computed ones. -/
theorem workerMetric_gather_shape_and_drop
    (ws : List (ℕ × (ℕ → ℕ → ℕ → ℚ))) (dim iters : ℕ)
    (hd : 0 < dim) (hi : 0 < iters) :
    (∀ w ∈ ws,
      (workerMetric (gatherMax (ws.map Prod.fst)) w.1 dim iters w.2).length =
        gatherMax (ws.map Prod.fst)) ∧
    (vstackAll (ws.map (fun w =>
        workerMetric (gatherMax (ws.map Prod.fst)) w.1 dim iters w.2))).length =
      ws.length * gatherMax (ws.map Prod.fst) ∧
    dropAllNaN (vstackAll (ws.map (fun w =>
        workerMetric (gatherMax (ws.map Prod.fst)) w.1 dim iters w.2))) =
      vstackAll (ws.map (fun w => workerMetric w.1 w.1 dim iters w.2)) := by
  refine ⟨?_, ?_, ?_⟩
  · intro w hw
    simp [workerMetric]
  · rw [show ws.length = (ws.map (fun w =>
        workerMetric (gatherMax (ws.map Prod.fst)) w.1 dim iters w.2)).length by
      rw [List.length_map]]
    apply length_vstackAll
    intro x hx
    obtain ⟨w, hw, rfl⟩ := List.mem_map.mp hx
    simp [workerMetric]
  · rw [vstackAll, vstackAll, dropAllNaN_flatten, List.map_map]
    congr 1
    apply List.map_congr_left
    intro w hw
    exact dropAllNaN_workerMetric _ _ _ _ _
      (mem_le_foldl_max (ws.map Prod.fst) 0 w.1 (List.mem_map.mpr ⟨w, hw, rfl⟩))
      hd hi

/-- The gathered worker table of the C9 witness: two workers holding 1 and 2
volumes, every Dice value 0. -/
def wsEx : List (ℕ × (ℕ → ℕ → ℕ → ℚ)) :=
  [(1, fun _ _ _ => 0), (2, fun _ _ _ => 0)]

/-- C9 witness: two workers with shard sizes 1 and 2, one object, one
iteration. -/
theorem workerMetric_gather_shape_and_drop_witness :
    ((0 : ℕ) < 1 ∧ (0 : ℕ) < 1) ∧
    ((∀ w ∈ wsEx,
      (workerMetric (gatherMax (wsEx.map Prod.fst)) w.1 1 1 w.2).length =
        gatherMax (wsEx.map Prod.fst)) ∧
    (vstackAll (wsEx.map (fun w =>
        workerMetric (gatherMax (wsEx.map Prod.fst)) w.1 1 1 w.2))).length =
      wsEx.length * gatherMax (wsEx.map Prod.fst) ∧
    dropAllNaN (vstackAll (wsEx.map (fun w =>
        workerMetric (gatherMax (wsEx.map Prod.fst)) w.1 1 1 w.2))) =
      vstackAll (wsEx.map (fun w => workerMetric w.1 w.1 1 1 w.2))) :=
  ⟨⟨Nat.zero_lt_one, Nat.zero_lt_one⟩,
    workerMetric_gather_shape_and_drop wsEx 1 1
      Nat.zero_lt_one Nat.zero_lt_one⟩

-- Final reporting ---------------------------------------------------------------

/-- The final reporting block of run on rank 0. keep_index filters metric
rows; the next statement reads point_num, a name run never assigns, so the
block aborts with a NameError before torch.save persists anything:
Except.error models that failure, Except.ok the saved
(metric, point) bundle. -/
def reportBlock (metric : List (List (List (Option ℚ))))
    (pointNum : Option (List ℚ)) :
    Except String (List (List (List (Option ℚ))) × List ℚ) :=
  let metricKept := dropAllNaN metric
  match pointNum with
  | none => Except.error "NameError: name point_num is not defined"
  | some pn =>
    Except.ok (metricKept,
      ((metric.zip pn).filter (fun rp => !allNaNRow rp.1)).map (fun rp => rp.2))

/-- run contains no assignment to point_num before the reporting block reads
it. -/
def runPointNum : Option (List ℚ) := none

/-- C2: the reporting block raises NameError on the unassigned point_num for
every gathered metric tensor, so the torch.save of the metric / point bundle
is never reached and nothing is persisted. -/
theorem reportBlock_point_num_undefined (metric : List (List (List (Option ℚ)))) :
    reportBlock metric runPointNum =
      Except.error "NameError: name point_num is not defined" := rfl
